import Mathlib

/-!
Verification of the structex annotation-driven transcoding engine.

The definitions below are a shallow embedding of the Go sources:
the bit-level encoder (encoder.write / writeByte / align / field / layout),
the bit-level decoder (decoder.read / readValue / array / slice), the
scalar-field traversal loop of transcoder.transcode, and the tag parser
(tags.add).  Machine integers are modelled as Nat with explicit "% 2 ^ 64"
(uint64 casts) and "% 256" (uint8 casts); byte sources and sinks are lists
of Nat; Go error returns become Except; the io.EOF sentinel becomes the
dedicated error constructor "eof".
-/

namespace Structex

/-! ### Field descriptor model (tags.go)

Field kinds are restricted to the unsigned scalar kinds uint8/16/32/64,
the kinds supported by both getValue (encode) and readValue (decode).
-/

inductive FieldKind
  | u8
  | u16
  | u32
  | u64
deriving DecidableEq, Repr

/-- reflect.Type.Bits() : the natural storage width of a field kind. -/
def naturalBits : FieldKind → Nat
  | .u8 => 8
  | .u16 => 16
  | .u32 => 32
  | .u64 => 64

inductive Endianness
  | little
  | big
deriving DecidableEq, Repr

inductive LayoutFormat
  | none
  | sizeOf
  | countOf
deriving DecidableEq, Repr

structure Bitfield where
  nbits : Nat
  reserved : Bool
deriving DecidableEq, Repr

structure Layout where
  format : LayoutFormat
  name : String
  relative : Bool
  value : Nat
deriving DecidableEq, Repr

structure Tags where
  endian : Endianness
  bitfield : Bitfield
  layout : Layout
  alignment : Nat
  truncate : Bool
deriving DecidableEq, Repr

/-- The descriptor produced by parseFieldTags before any annotation key is
applied: little endian, natural storage width, no layout role, no
alignment, no truncation. -/
def defaultTags (k : FieldKind) : Tags :=
  { endian := .little
    bitfield := { nbits := naturalBits k, reserved := false }
    layout := { format := .none, name := "", relative := false, value := 0 }
    alignment := 0
    truncate := false }

/-- One scalar struct field as seen by the traversal engine: its kind, its
parsed tags, whether reflection can set it (CanSet), and its current
in-memory value (a machine value, used by the encoder). -/
structure Field where
  kind : FieldKind
  tags : Tags
  canSet : Bool
  value : Nat
deriving DecidableEq, Repr

/-! ### Encoder state and bit-level write (encoder.go, current revision) -/

structure EncState where
  out : List Nat
  currentByte : Nat
  byteOffset : Nat
  bitOffset : Nat
deriving DecidableEq, Repr

def enc0 : EncState := ⟨[], 0, 0, 0⟩

inductive EncError
  | overflow
deriving DecidableEq, Repr

/-- encoder.writeByte: emit one byte to the sink and advance byteOffset.
The sink is modelled as an unbounded list, so the sink-error path is
absent. -/
def writeByte (b : Nat) (e : EncState) : EncState :=
  { e with out := e.out ++ [b], byteOffset := e.byteOffset + 1 }

/-- The "for nbits != 0" loop at the end of encoder.write: emit whole bytes
of value, little-endian, while at least 8 bits remain; a final run of
1..7 bits is left pending in currentByte (uint8(value)) and bitOffset.  The
loop consumes 8 bits per iteration, hence the n+8 pattern. -/
def writeLoop : Nat → Nat → EncState → EncState
  | value, nbits + 8, e =>
      writeLoop (value >>> 8) nbits (writeByte (value % 256) { e with currentByte := value % 256 })
  | _, 0, e => e
  | value, nbits, e => { e with currentByte := value % 256, bitOffset := e.bitOffset + nbits }

/-- encoder.write of the current encoder revision.  The guard is written
exactly as in the source: "nbits > 1 && value > math.MaxUint64", comparing
the uint64 argument against the maximal uint64.  uint8(value << shift) is
(value <<< shift) % 256: the Go shift first wraps at 2 ^ 64, but 256
divides 2 ^ 64 so the low byte is unaffected. -/
def encWrite (value nbits : Nat) (e : EncState) : Except EncError EncState :=
  let value := value % 2 ^ 64
  if 1 < nbits ∧ 2 ^ 64 - 1 < value then
    .error .overflow
  else if e.bitOffset ≠ 0 then
    let cb := e.currentByte ||| (value <<< e.bitOffset) % 256
    let remaining := 8 - e.bitOffset
    if nbits < remaining then
      .ok { e with currentByte := cb, bitOffset := e.bitOffset + nbits }
    else
      .ok (writeLoop (value >>> remaining) (nbits - remaining)
            { writeByte cb e with currentByte := (value >>> remaining) % 256, bitOffset := 0 })
  else
    .ok (writeLoop value nbits e)

/-- getValue: the reflected field value as a uint64 (val.Uint() for the
unsigned kinds modelled here). -/
def getValue (f : Field) : Nat := f.value % 2 ^ 64

/-- math/bits.ReverseBytesNN: byte-reverse the low n bytes of v. -/
def reverseBytes : Nat → Nat → Nat
  | 0, _ => 0
  | k + 1, v => ((v % 256) <<< (8 * k)) ||| reverseBytes k (v >>> 8)

/-- The big-endian switch of encoder.field: uint16/uint32/uint64 values are
byte-reversed at their storage width; uint8 is untouched (no case). -/
def reverseBytesKind : FieldKind → Nat → Nat
  | .u8, v => v
  | .u16, v => reverseBytes 2 (v % 2 ^ 16)
  | .u32, v => reverseBytes 4 (v % 2 ^ 32)
  | .u64, v => reverseBytes 8 (v % 2 ^ 64)

/-- encoder.field for a tagged scalar field (the traversal engine always
passes the parsed tags).  Note: the reserved flag of the bitfield tag is
not consulted anywhere in this function. -/
def encField (f : Field) (e : EncState) : Except EncError EncState :=
  let v := getValue f
  let v := if f.tags.endian = .big then reverseBytesKind f.kind v else v
  encWrite v f.tags.bitfield.nbits e

/-- The scalar-field portion of transcoder.transcode under the encoder
handler: fields are visited in declaration order, any handler error aborts
the walk. -/
def encodeFields : List Field → EncState → Except EncError EncState
  | [], e => .ok e
  | f :: rest, e =>
    match encField f e with
    | .error err => .error err
    | .ok e => encodeFields rest e

/-- Go uint64 subtraction a - b (wrapping at 2 ^ 64). -/
def goSub64 (a b : Nat) : Nat := (a % 2 ^ 64 + (2 ^ 64 - b % 2 ^ 64)) % 2 ^ 64

/-- The value computed by encoder.layout before it is handed to
encoder.write: the governing field's own machine value when non-zero
(ref.value.IsZero() false), otherwise a value derived from the referenced
sequence's live length: for sizeOf, element size times length (minus the
running byte offset when relative); for countOf, the length.  elemSize
stands for size(val.Index(0)). -/
def encoderLayoutValue (refValue : Nat) (fmt : LayoutFormat) (relative : Bool)
    (targetLen elemSize : Nat) (e : EncState) : Nat :=
  if refValue = 0 then
    match fmt with
    | .sizeOf =>
      let v := (targetLen * elemSize) % 2 ^ 64
      if relative then goSub64 v e.byteOffset else v
    | .countOf => targetLen % 2 ^ 64
    | .none => 0
  else refValue % 2 ^ 64

/-- encoder.layout: compute the layout value and write it in the governing
field's declared bit width. -/
def encoderLayout (refValue : Nat) (fmt : LayoutFormat) (relative : Bool)
    (nbits targetLen elemSize : Nat) (e : EncState) : Except EncError EncState :=
  encWrite (encoderLayoutValue refValue fmt relative targetLen elemSize e) nbits e

/-- The pad loop of encoder.align: "for byteOffset % b != 0 { write(0, 8) }".
Each iteration emits exactly one zero byte, so the loop body runs
(b - byteOffset % b) % b times; encAlign below passes that count. -/
def encAlignPad : Nat → EncState → Except EncError EncState
  | 0, e => .ok e
  | k + 1, e =>
    match encWrite 0 8 e with
    | .error err => .error err
    | .ok e => encAlignPad k e

/-- encoder.align: flush a pending partial byte by writing 8 - bitOffset
zero bits, then emit zero bytes until byteOffset is a multiple of b. -/
def encAlign (b : Nat) (e : EncState) : Except EncError EncState :=
  match (if e.bitOffset ≠ 0 then encWrite 0 (8 - e.bitOffset) e else .ok e) with
  | .error err => .error err
  | .ok e => encAlignPad ((b - e.byteOffset % b) % b) e

/-- Modelled from the spec: the per-field dispatch that honours the
alignment descriptor is absent from the sources under verification (no
transcode revision in them invokes the align handler, which only the
encoder implements); per the spec, "byte-boundary alignment required
before this field" means a field whose descriptor carries a non-zero
alignment triggers encoder.align on that boundary before the field itself
is encoded. -/
def encodeFieldsAligned : List Field → EncState → Except EncError EncState
  | [], e => .ok e
  | f :: rest, e =>
    match (if f.tags.alignment ≠ 0 then encAlign f.tags.alignment e else .ok e) with
    | .error err => .error err
    | .ok e =>
      match encField f e with
      | .error err => .error err
      | .ok e => encodeFieldsAligned rest e

/-! ### Decoder state and bit-level read (decoder.go) -/

structure DecState where
  stream : List Nat
  currentByte : Nat
  byteOffset : Nat
  bitOffset : Nat
deriving DecidableEq, Repr

def dec0 (stream : List Nat) : DecState := ⟨stream, 0, 0, 0⟩

inductive DecError
  | eof
  | zeroBits
  | insufficientBits
  | unsupportedSpan
  | cannotSet
  | bitfieldTooWide
  | nonMultipleSize
  | missingTag
deriving DecidableEq, Repr

/-- The whole-byte loop of decoder.read: "for i := 0; i < nbits; i += 8",
reading one byte per iteration and accumulating little-endian
(value |= b << i).  count is the number of iterations left, shift the
current i.  An exhausted source is io.EOF. -/
def decReadLoop : Nat → Nat → Nat → DecState → Except DecError (Nat × DecState)
  | 0, _, value, d => .ok (value, d)
  | count + 1, shift, value, d =>
    match d.stream with
    | [] => .error .eof
    | b :: rest => decReadLoop count (shift + 8) (value ||| (b <<< shift)) { d with stream := rest }

/-- decoder.read.  For nbits in 1..7: when byte-aligned a fresh byte is
fetched, then the request must fit in the bits remaining in the current
byte or it is an insufficient-bits error; the extracted bits are
(currentByte >> bitOffset) & (2 ^ nbits - 1) (the source builds the mask
with math.Pow, which is exact for these exponents).  For nbits >= 8 the
width must be a byte multiple and whole bytes are read little-endian. -/
def decRead (nbits : Nat) (d : DecState) : Except DecError (Nat × DecState) :=
  if nbits = 0 then .error .zeroBits
  else if nbits < 8 then
    match (if d.bitOffset = 0 then
            match d.stream with
            | [] => .error .eof
            | b :: rest => .ok { d with stream := rest, currentByte := b }
          else .ok d : Except DecError DecState) with
    | .error err => .error err
    | .ok d =>
      if 8 - d.bitOffset < nbits then .error .insufficientBits
      else
        let mask := 2 ^ nbits - 1
        let value := (d.currentByte >>> d.bitOffset) &&& mask
        let off := d.bitOffset + nbits
        .ok (value, { d with bitOffset := if 8 ≤ off then 0 else off })
  else if nbits % 8 ≠ 0 then .error .unsupportedSpan
  else decReadLoop (nbits / 8) 0 0 d

/-- decoder.readValue: reject unsettable fields, reject a bitfield wider
than the natural storage width, then read tags.bitfield.nbits bits (the
natural width when the caller passed nil tags, as the array and slice
element loops do).  The read bits are stored unchanged (SetUint) and
returned. -/
def readValue (kind : FieldKind) (canSet : Bool) (tg : Option Tags) (d : DecState) :
    Except DecError (Nat × DecState) :=
  if canSet = false then .error .cannotSet
  else
    let nat := naturalBits kind
    match tg with
    | some t =>
      if nat < t.bitfield.nbits then .error .bitfieldTooWide
      else decRead t.bitfield.nbits d
    | none => decRead nat d

/-- The scalar-field portion of transcoder.transcode under the decoder
handler: fields visited in declaration order, decoded values stored in
order, any error aborts the walk. -/
def decodeFields : List Field → DecState → Except DecError (List Nat × DecState)
  | [], d => .ok ([], d)
  | f :: rest, d =>
    match readValue f.kind f.canSet (some f.tags) d with
    | .error err => .error err
    | .ok (v, d) =>
      match decodeFields rest d with
      | .error err => .error err
      | .ok (vs, d) => .ok (v :: vs, d)

/-- decoder.array, non-struct element branch: each element is read with
nil tags (natural width); io.EOF with the truncate tag set on the array
field turns into success, leaving the remaining elements at their zero
defaults (the destination array is pre-zeroed). -/
def decoderArrayScalar (k : FieldKind) (canSet : Bool) (tg : Tags) :
    Nat → DecState → Except DecError (List Nat × DecState)
  | 0, d => .ok ([], d)
  | n + 1, d =>
    match readValue k canSet none d with
    | .error err =>
      if err = .eof ∧ tg.truncate then .ok (List.replicate (n + 1) 0, d)
      else .error err
    | .ok (v, d) =>
      match decoderArrayScalar k canSet tg n d with
      | .error err => .error err
      | .ok (vs, d) => .ok (v :: vs, d)

/-- decoder.array, struct element branch: each element is decoded by a
recursive transcode; an error — io.EOF included — aborts the walk, the
truncate tag notwithstanding (the source only consults truncate in the
non-struct branch). -/
def decoderArrayStruct (fs : List Field) (tg : Tags) :
    Nat → DecState → Except DecError (List (List Nat) × DecState)
  | 0, d => .ok ([], d)
  | n + 1, d =>
    match decodeFields fs d with
    | .error err => .error err
    | .ok (vs, d) =>
      match decoderArrayStruct fs tg n d with
      | .error err => .error err
      | .ok (vss, d) => .ok (vs :: vss, d)

/-- The element loop of decoder.slice for scalar elements: transcode of a
non-struct value reads it with nil tags; io.EOF with truncate set on the
slice field is success with the remaining elements at their zero defaults
(the slice was freshly made, hence zeroed). -/
def decoderSliceLoop (k : FieldKind) (canSet : Bool) (tg : Tags) :
    Nat → DecState → Except DecError (List Nat × DecState)
  | 0, d => .ok ([], d)
  | n + 1, d =>
    match readValue k canSet none d with
    | .error err =>
      if err = .eof ∧ tg.truncate then .ok (List.replicate (n + 1) 0, d)
      else .error err
    | .ok (v, d) =>
      match decoderSliceLoop k canSet tg n d with
      | .error err => .error err
      | .ok (vs, d) => .ok (v :: vs, d)

/-- decoder.slice for a slice of scalar elements.  With a registered
layout reference: sizeOf divides the referenced byte span by the element
size — a non-multiple is an error — and countOf is taken as the element
count directly; the slice is resized to that length before the elements
are decoded.  Without a reference the existing length is used.  The
element size is typeSize of the element type, the kind's byte width for
scalars. -/
def decoderSliceScalar (k : FieldKind) (canSet : Bool) (tg : Tags) (origLen : Nat)
    (ref : Option (LayoutFormat × Nat)) (d : DecState) :
    Except DecError (List Nat × DecState) :=
  match ref with
  | none => decoderSliceLoop k canSet tg origLen d
  | some (fmt, v) =>
    match fmt with
    | .sizeOf =>
      let sz := naturalBits k / 8
      if v % sz ≠ 0 then .error .nonMultipleSize
      else decoderSliceLoop k canSet tg (v / sz) d
    | .countOf => decoderSliceLoop k canSet tg v d
    | .none => .error .missingTag

/-! ### Tag parsing (tags.go, tags.add) -/

/-- The characters of s before the first comma. -/
def splitFirstChars : List Char → List Char
  | [] => []
  | c :: rest => if c = ',' then [] else c :: splitFirstChars rest

/-- strings.Split(s, ",")[0] (Split always returns at least one piece). -/
def goSplitFirst (s : String) : String := String.mk (splitFirstChars s.data)

def startsWithChars : List Char → List Char → Bool
  | _, [] => true
  | [], _ :: _ => false
  | c :: s, p :: ps => c = p && startsWithChars s ps

def containsChars : List Char → List Char → Bool
  | [], sub => sub.isEmpty
  | s@(_ :: rest), sub => startsWithChars s sub || containsChars rest sub

/-- strings.Contains(s, sub). -/
def goContains (s sub : String) : Bool := containsChars s.data sub.data

/-- ASCII lower-casing of one character. -/
def lowerChar (c : Char) : Char :=
  if 65 ≤ c.toNat ∧ c.toNat ≤ 90 then Char.ofNat (c.toNat + 32) else c

/-- strings.ToLower for the ASCII annotation keys. -/
def goToLower (s : String) : String := String.mk (s.data.map lowerChar)

/-- Modelled from the Go standard library collaborator
strconv.ParseInt(s, 0, bitSize), restricted to the unsigned decimal
literals exercised by the claims: none on a syntax error (empty or
non-digit input) or when the value does not fit a signed bitSize-bit
integer (ParseInt range-checks against the SIGNED bound even when the
result is later used unsigned). -/
def goParseInt (s : String) (bitSize : Nat) : Option Nat :=
  if s.data.isEmpty then none
  else if s.data.all Char.isDigit then
    let v := s.data.foldl (fun acc c => acc * 10 + (c.toNat - 48)) 0
    if v ≤ 2 ^ (bitSize - 1) - 1 then some v else none
  else none

/-- The identity of a struct field as tags.add sees it: its reflected kind
and its raw tag text (both quoted by the panic value). -/
structure StructField where
  kind : FieldKind
  rawTag : String
deriving DecidableEq, Repr

structure TaggingError where
  tag : String
  kind : FieldKind
deriving DecidableEq, Repr

/-- tags.add: apply one parsed key/value annotation to the descriptor
under construction.  The source panics with a TaggingError where this
model returns .error.  The bitfield width is parsed with bit size
sf.Type.Bits() and align with bit size 64. -/
def tagsAdd (sf : StructField) (t : Tags) (key val : String) : Except TaggingError Tags :=
  match goToLower key with
  | "little" => .ok { t with endian := .little }
  | "big" => .ok { t with endian := .big }
  | "bitfield" =>
    let nbs := goSplitFirst val
    match (if nbs.data.length ≠ 0 then
            match goParseInt nbs (naturalBits sf.kind) with
            | none => .error ⟨sf.rawTag, sf.kind⟩
            | some nbits => .ok { t with bitfield := { t.bitfield with nbits := nbits } }
          else .ok t : Except TaggingError Tags) with
    | .error err => .error err
    | .ok t => .ok { t with bitfield := { t.bitfield with reserved := goContains val "reserved" } }
  | "sizeof" =>
    .ok { t with layout := { t.layout with
            format := .sizeOf, name := goSplitFirst val, relative := goContains val "relative" } }
  | "countof" =>
    .ok { t with layout := { t.layout with format := .countOf, name := val } }
  | "truncate" => .ok { t with truncate := true }
  | "align" =>
    match goParseInt val 64 with
    | none => .error ⟨sf.rawTag, sf.kind⟩
    | some a => .ok { t with alignment := a }
  | _ => .ok t

/-! ### Specification-side notions used to state the claims -/

/-- The little-endian byte rendering of the low 8*k bits of v: the bytes a
whole-byte write emits and a whole-byte read consumes. -/
def leBytes : Nat → Nat → List Nat
  | 0, _ => []
  | k + 1, v => v % 256 :: leBytes k (v >>> 8)

/-- A field list is well formed for round-tripping when, tracking the bit
position off within the current byte: every field is settable and
little-endian, its value fits its declared width, the declared width is
positive and within the natural storage width, a sub-byte field fits in
the bits remaining in the current byte, a wider field starts byte-aligned
with a byte-multiple width, and the whole layout ends on a byte boundary. -/
def wfFields : List Field → Nat → Bool
  | [], off => off == 0
  | f :: rest, off =>
    let n := f.tags.bitfield.nbits
    f.canSet && (f.tags.endian == .little) && decide (f.value < 2 ^ n)
      && decide (1 ≤ n) && decide (n ≤ naturalBits f.kind)
      && (if n < 8 then decide (n ≤ 8 - off) else (off == 0) && (n % 8 == 0))
      && wfFields rest ((off + n) % 8)

/-- No reserved-field content: every field flagged reserved holds zero. -/
def noReservedContent (fields : List Field) : Bool :=
  fields.all fun f => !f.tags.bitfield.reserved || (f.value == 0)

end Structex

/-! ## Arithmetic toolkit -/

namespace Structex

theorem mod_two_pow_64_not_top (v : Nat) : ¬ (2 ^ 64 - 1 < v % 2 ^ 64) := by
  have h := Nat.mod_lt v (show 0 < 2 ^ 64 by norm_num)
  omega

theorem lor_mod_two_pow (x y k : Nat) : (x ||| y) % 2 ^ k = x % 2 ^ k ||| y % 2 ^ k := by
  apply Nat.eq_of_testBit_eq
  intro i
  simp [Nat.testBit_mod_two_pow, Nat.testBit_or, Bool.and_or_distrib_left]

theorem lor_shiftRight (x y k : Nat) : (x ||| y) >>> k = x >>> k ||| y >>> k := by
  apply Nat.eq_of_testBit_eq
  intro i
  simp [Nat.testBit_shiftRight, Nat.testBit_or]

theorem lor_shiftLeft (x y k : Nat) : (x ||| y) <<< k = x <<< k ||| y <<< k := by
  apply Nat.eq_of_testBit_eq
  intro i
  simp [Nat.testBit_shiftLeft, Nat.testBit_or, Bool.and_or_distrib_left]

theorem shiftRight_eq_zero {x k : Nat} (h : x < 2 ^ k) : x >>> k = 0 := by
  simp [Nat.shiftRight_eq_div_pow, Nat.div_eq_of_lt h]

theorem shiftLeft_mod_eq_zero (x : Nat) {k m : Nat} (h : k ≤ m) : (x <<< m) % 2 ^ k = 0 := by
  apply Nat.eq_of_testBit_eq
  intro i
  simp only [Nat.testBit_mod_two_pow, Nat.testBit_shiftLeft, Nat.zero_testBit]
  by_cases hi : i < k
  · have : ¬ (i ≥ m) := by omega
    simp [hi, this]
  · simp [hi]

theorem mod_two_pow_mod_two_pow (x : Nat) {j k : Nat} (h : j ≤ k) :
    x % 2 ^ k % 2 ^ j = x % 2 ^ j :=
  Nat.mod_mod_of_dvd x (Nat.pow_dvd_pow 2 h)

theorem shiftRight_mod_two_pow (x s n : Nat) :
    (x >>> s) % 2 ^ n = (x % 2 ^ (s + n)) >>> s := by
  apply Nat.eq_of_testBit_eq
  intro i
  simp only [Nat.testBit_mod_two_pow, Nat.testBit_shiftRight]
  by_cases hi : i < n
  · have : s + i < s + n := by omega
    simp [hi, this]
  · have : ¬ (s + i < s + n) := by omega
    simp [hi, this]

theorem shiftLeft_lt {v n : Nat} (s : Nat) (h : v < 2 ^ n) : v <<< s < 2 ^ (s + n) := by
  rw [Nat.shiftLeft_eq, Nat.pow_add, Nat.mul_comm (2 ^ s)]
  exact Nat.mul_lt_mul_of_lt_of_le h (Nat.le_refl _) (Nat.two_pow_pos s)

theorem byte_decomp (w : Nat) : (w % 256) ||| ((w >>> 8) <<< 8) = w := by
  apply Nat.eq_of_testBit_eq
  intro i
  have h256 : (256 : Nat) = 2 ^ 8 := by norm_num
  rw [h256]
  simp only [Nat.testBit_or, Nat.testBit_mod_two_pow, Nat.testBit_shiftLeft,
    Nat.testBit_shiftRight]
  by_cases hi : i < 8
  · have : ¬ (i ≥ 8) := by omega
    simp [hi, this]
  · have h1 : i ≥ 8 := by omega
    have h2 : 8 + (i - 8) = i := by omega
    simp [hi, h1, h2]

/-- Extracting n bits at position off from a value assembled as
low bits c (c < 2 ^ off) with v (v < 2 ^ n) merged in at off yields v. -/
theorem extract_assembled {c v off n : Nat} (hc : c < 2 ^ off) (hv : v < 2 ^ n) :
    ((c ||| v <<< off) >>> off) &&& (2 ^ n - 1) = v := by
  rw [Nat.and_pow_two_sub_one_eq_mod, lor_shiftRight, Nat.shiftLeft_shiftRight,
    shiftRight_eq_zero hc, Nat.zero_or, Nat.mod_eq_of_lt hv]

/-- The low off bits of such an assembled value are c. -/
theorem low_of_assembled {c off : Nat} (v : Nat) (hc : c < 2 ^ off) :
    (c ||| v <<< off) % 2 ^ off = c := by
  rw [lor_mod_two_pow, shiftLeft_mod_eq_zero v (Nat.le_refl off), Nat.or_zero,
    Nat.mod_eq_of_lt hc]

instance {ε α : Type} [DecidableEq ε] [DecidableEq α] : DecidableEq (Except ε α) :=
  fun a b =>
    match a, b with
    | .error x, .error y =>
      if h : x = y then .isTrue (by rw [h]) else .isFalse (by intro hh; cases hh; exact h rfl)
    | .error _, .ok _ => .isFalse (by intro hh; cases hh)
    | .ok _, .error _ => .isFalse (by intro hh; cases hh)
    | .ok x, .ok y =>
      if h : x = y then .isTrue (by rw [h]) else .isFalse (by intro hh; cases hh; exact h rfl)

end Structex

/-! ## Unfolding lemmas for the bit-level codec -/

namespace Structex

theorem encWrite_guard_false (v n : Nat) : ¬ (1 < n ∧ 2 ^ 64 - 1 < v % 2 ^ 64) :=
  fun h => mod_two_pow_64_not_top v h.2

theorem encWrite_aligned {e : EncState} (v n : Nat) (h : e.bitOffset = 0) :
    encWrite v n e = .ok (writeLoop (v % 2 ^ 64) n e) := by
  simp only [encWrite]
  rw [if_neg (encWrite_guard_false v n), if_neg (show ¬ e.bitOffset ≠ 0 by simp [h])]

theorem encWrite_mid_small {e : EncState} (v : Nat) {n : Nat} (h : e.bitOffset ≠ 0)
    (hn : n < 8 - e.bitOffset) :
    encWrite v n e = .ok { e with
      currentByte := e.currentByte ||| ((v % 2 ^ 64) <<< e.bitOffset) % 256,
      bitOffset := e.bitOffset + n } := by
  simp only [encWrite]
  rw [if_neg (encWrite_guard_false v n), if_pos h, if_pos hn]

theorem encWrite_mid_large {e : EncState} (v : Nat) {n : Nat} (h : e.bitOffset ≠ 0)
    (hn : 8 - e.bitOffset ≤ n) :
    encWrite v n e = .ok (writeLoop ((v % 2 ^ 64) >>> (8 - e.bitOffset)) (n - (8 - e.bitOffset))
      { writeByte (e.currentByte ||| ((v % 2 ^ 64) <<< e.bitOffset) % 256) e with
          currentByte := ((v % 2 ^ 64) >>> (8 - e.bitOffset)) % 256, bitOffset := 0 }) := by
  simp only [encWrite]
  rw [if_neg (encWrite_guard_false v n), if_pos h, if_neg (Nat.not_lt.mpr hn)]

theorem writeLoop_zero (v : Nat) (e : EncState) : writeLoop v 0 e = e := rfl

theorem writeLoop_small (v : Nat) {n : Nat} (h1 : 1 ≤ n) (h2 : n < 8) (e : EncState) :
    writeLoop v n e = { e with currentByte := v % 256, bitOffset := e.bitOffset + n } := by
  interval_cases n <;> rfl

theorem writeLoop_step (v n : Nat) (e : EncState) :
    writeLoop v (n + 8) e =
      writeLoop (v >>> 8) n (writeByte (v % 256) { e with currentByte := v % 256 }) := rfl

theorem writeLoop_bytes : ∀ (k v : Nat) (e : EncState), ∃ cb,
    writeLoop v (8 * k) e =
      { out := e.out ++ leBytes k v, currentByte := cb,
        byteOffset := e.byteOffset + k, bitOffset := e.bitOffset }
  | 0, v, e => ⟨e.currentByte, by simp [writeLoop_zero, leBytes]⟩
  | k + 1, v, e => by
    obtain ⟨cb, ih⟩ := writeLoop_bytes k (v >>> 8) (writeByte (v % 256) { e with currentByte := v % 256 })
    refine ⟨cb, ?_⟩
    have h8 : 8 * (k + 1) = 8 * k + 8 := by ring
    rw [h8, writeLoop_step, ih]
    simp [writeByte, leBytes, List.append_assoc]
    try omega

theorem decReadLoop_le : ∀ (k shift acc w : Nat) (s : List Nat) (c bo off : Nat),
    w < 2 ^ (8 * k) →
    decReadLoop k shift acc ⟨leBytes k w ++ s, c, bo, off⟩ =
      .ok (acc ||| w <<< shift, ⟨s, c, bo, off⟩)
  | 0, shift, acc, w, s, c, bo, off, hw => by
    have hw0 : w = 0 := by simpa using hw
    subst hw0
    simp [decReadLoop, leBytes, Nat.zero_shiftLeft, Nat.or_zero]
  | k + 1, shift, acc, w, s, c, bo, off, hw => by
    have hlt : w >>> 8 < 2 ^ (8 * k) := by
      rw [Nat.shiftRight_eq_div_pow]
      have h256 : (0 : Nat) < 2 ^ 8 := by norm_num
      rw [Nat.div_lt_iff_lt_mul h256]
      calc w < 2 ^ (8 * (k + 1)) := hw
        _ = 2 ^ (8 * k) * 2 ^ 8 := by rw [← Nat.pow_add]; ring_nf
    have ih := decReadLoop_le k (shift + 8) (acc ||| (w % 256) <<< shift) (w >>> 8)
      s c bo off hlt
    have hmerge : (acc ||| (w % 256) <<< shift) ||| (w >>> 8) <<< (shift + 8) =
        acc ||| w <<< shift := by
      rw [Nat.lor_assoc]
      have h1 : (w >>> 8) <<< (shift + 8) = ((w >>> 8) <<< 8) <<< shift := by
        rw [Nat.add_comm shift 8, Nat.shiftLeft_add]
      rw [h1, ← lor_shiftLeft, byte_decomp]
    simp only [leBytes, List.cons_append, decReadLoop]
    rw [ih, hmerge]

theorem decRead_bytes {k w : Nat} (hk : 1 ≤ k) (hw : w < 2 ^ (8 * k))
    (s : List Nat) (c bo off : Nat) :
    decRead (8 * k) ⟨leBytes k w ++ s, c, bo, off⟩ = .ok (w, ⟨s, c, bo, off⟩) := by
  have h0 : ¬ (8 * k = 0) := by omega
  have h8 : ¬ (8 * k < 8) := by omega
  have hm : 8 * k % 8 = 0 := by omega
  have hd : 8 * k / 8 = k := by omega
  have hloop := decReadLoop_le k 0 0 w s c bo off hw
  rw [decRead, if_neg h0, if_neg h8, if_neg (show ¬ 8 * k % 8 ≠ 0 by simp [hm]), hd, hloop,
    Nat.zero_or, Nat.shiftLeft_zero]

theorem decRead_bytes_width {n w : Nat} (hn : 8 ≤ n) (hm : n % 8 = 0) (hw : w < 2 ^ n)
    (s : List Nat) (c bo off : Nat) :
    decRead n ⟨leBytes (n / 8) w ++ s, c, bo, off⟩ = .ok (w, ⟨s, c, bo, off⟩) := by
  have h8k : 8 * (n / 8) = n := by omega
  have hw' : w < 2 ^ (8 * (n / 8)) := by rw [h8k]; exact hw
  have h := decRead_bytes (show 1 ≤ n / 8 by omega) hw' s c bo off
  rw [h8k] at h
  exact h

theorem decRead_subbyte_insufficient {d : DecState} {n : Nat} (h1 : 1 ≤ n) (h2 : n < 8)
    (h3 : d.bitOffset ≠ 0) (h4 : 8 - d.bitOffset < n) :
    decRead n d = .error .insufficientBits := by
  have h0 : ¬ (n = 0) := by omega
  rw [decRead]
  simp [h0, h2, h3, h4]

theorem decRead_subbyte_ok {d : DecState} {n : Nat} (h1 : 1 ≤ n) (h2 : n < 8)
    (h3 : d.bitOffset ≠ 0) (h4 : n ≤ 8 - d.bitOffset) :
    decRead n d = .ok ((d.currentByte >>> d.bitOffset) &&& (2 ^ n - 1),
      { d with bitOffset := if 8 ≤ d.bitOffset + n then 0 else d.bitOffset + n }) := by
  have h0 : ¬ (n = 0) := by omega
  have h4' : ¬ (8 - d.bitOffset < n) := by omega
  have h3' : ¬ (d.bitOffset = 0) := h3
  simp only [decRead, if_neg h0, if_pos h2, if_neg h3', if_neg h4']

theorem decRead_fetch {n : Nat} (h1 : 1 ≤ n) (h2 : n < 8) (b : Nat) (s : List Nat) (c bo : Nat) :
    decRead n ⟨b :: s, c, bo, 0⟩ = .ok (b &&& (2 ^ n - 1), ⟨s, b, bo, n⟩) := by
  have h0 : ¬ (n = 0) := by omega
  have h4 : ¬ (8 - 0 < n) := by omega
  have h8 : ¬ (8 ≤ 0 + n) := by omega
  rw [decRead]
  simp [h0, h2, h4, h8, Nat.shiftRight_zero]

end Structex

/-! ## The claims -/

namespace Structex

/-- C2: the spec says a reserved field always encodes as zero regardless of
its in-memory value, but encoder.field never consults the reserved flag:
a uint8 field tagged bitfield:"8,reserved" holding 5 encodes as the byte 5,
and encoding is completely independent of the reserved flag. -/
theorem C2_reserved_not_zeroed :
    encField ⟨.u8, { defaultTags .u8 with bitfield := ⟨8, true⟩ }, true, 5⟩ enc0 =
      .ok ⟨[5], 5, 1, 0⟩ ∧
    ∀ (f : Field) (e : EncState) (b : Bool),
      encField { f with tags := { f.tags with bitfield := { f.tags.bitfield with reserved := b } } } e =
        encField f e := by
  exact ⟨rfl, fun f e b => rfl⟩

/-- C3: the overflow guard of the current encoder.write compares a uint64
against math.MaxUint64 and can never fire: writing the value 256 into an
8-bit span succeeds and emits the byte 0, silently dropping the high bit,
and encoder.write never returns an error at all. -/
theorem C3_overflow_never_reported :
    encWrite 256 8 enc0 = .ok ⟨[0], 0, 1, 0⟩ ∧
    ∀ (v n : Nat) (e : EncState), ∃ r, encWrite v n e = .ok r := by
  refine ⟨rfl, fun v n e => ?_⟩
  by_cases h : e.bitOffset = 0
  · exact ⟨_, encWrite_aligned v n h⟩
  · by_cases hn : n < 8 - e.bitOffset
    · exact ⟨_, encWrite_mid_small v h hn⟩
    · exact ⟨_, encWrite_mid_large v h (by omega)⟩

/-- C4: a sub-byte read of n bits (1 <= n < 8) from a partially consumed
byte fails with the insufficient-bits error when n exceeds the bits
remaining in that byte, and otherwise succeeds taking its bits from the
current byte only, leaving the stream untouched — it never spans into the
next byte. -/
theorem C4_subbyte_read_no_span (d : DecState) (n : Nat) (h1 : 1 ≤ n) (h2 : n < 8)
    (h3 : d.bitOffset ≠ 0) :
    (8 - d.bitOffset < n → decRead n d = .error .insufficientBits) ∧
    (n ≤ 8 - d.bitOffset →
      decRead n d = .ok ((d.currentByte >>> d.bitOffset) &&& (2 ^ n - 1),
        { d with bitOffset := if 8 ≤ d.bitOffset + n then 0 else d.bitOffset + n })) :=
  ⟨fun h4 => decRead_subbyte_insufficient h1 h2 h3 h4,
   fun h4 => decRead_subbyte_ok h1 h2 h3 h4⟩

theorem C4_subbyte_read_no_span_witness :
    decRead 4 ⟨[1, 2], 199, 0, 5⟩ = .error .insufficientBits ∧
    decRead 3 ⟨[1, 2], 199, 0, 5⟩ = .ok (6, ⟨[1, 2], 199, 0, 0⟩) := by
  constructor
  · exact (C4_subbyte_read_no_span ⟨[1, 2], 199, 0, 5⟩ 4 (by decide) (by decide) (by decide)).1
      (by decide)
  · have h := (C4_subbyte_read_no_span ⟨[1, 2], 199, 0, 5⟩ 3 (by decide) (by decide) (by decide)).2
      (by decide)
    rw [h]
    rfl

/-- C10: a scalar field that reflection cannot set (an unexported field) is
never silently skipped: readValue fails with the cannot-set error no matter
the state, and a decode of any field list containing such a field aborts
with an error. -/
theorem C10_unsettable_field_errors :
    (∀ (kind : FieldKind) (tg : Option Tags) (d : DecState),
        readValue kind false tg d = .error .cannotSet) ∧
    (∀ (fields : List Field) (d : DecState),
        (∃ f ∈ fields, f.canSet = false) → ∃ err, decodeFields fields d = .error err) := by
  constructor
  · intro kind tg d; rfl
  · intro fields
    induction fields with
    | nil =>
      intro d h
      rcases h with ⟨f, hf, _⟩
      cases hf
    | cons f rest ih =>
      intro d h
      rcases h with ⟨g, hg, hgc⟩
      rcases List.mem_cons.mp hg with rfl | hgrest
      · exact ⟨.cannotSet, by simp [decodeFields, readValue, hgc]⟩
      · cases hr : readValue f.kind f.canSet (some f.tags) d with
        | error err => exact ⟨err, by simp [decodeFields, hr]⟩
        | ok vd =>
          obtain ⟨v, d1⟩ := vd
          obtain ⟨err, herr⟩ := ih d1 ⟨g, hgrest, hgc⟩
          exact ⟨err, by simp [decodeFields, hr, herr]⟩

theorem C10_unsettable_field_errors_witness :
    readValue .u8 false none (dec0 [1]) = .error .cannotSet ∧
    ∃ err, decodeFields [⟨.u8, defaultTags .u8, false, 0⟩] (dec0 [1]) = .error err := by
  constructor
  · exact C10_unsettable_field_errors.1 .u8 none (dec0 [1])
  · exact C10_unsettable_field_errors.2 [⟨.u8, defaultTags .u8, false, 0⟩] (dec0 [1])
      ⟨⟨.u8, defaultTags .u8, false, 0⟩, by simp, rfl⟩

/-- C5 counterexample: the claim promises truncate-suppression of
end-of-data for every governed array, but decoder.array only consults
truncate for non-struct elements: decoding a 2-element array of one-byte
structs tagged truncate from a 1-byte source propagates io.EOF as an
error instead of succeeding. -/
theorem C5_truncate_cex :
    decoderArrayStruct [⟨.u8, defaultTags .u8, true, 0⟩]
      { defaultTags .u8 with truncate := true } 2 (dec0 [7]) = .error .eof := by
  rfl

/-- C5 (amended): for an array of non-struct (scalar) elements the
truncate tag converts end-of-data into success with the elements obtained
so far and the rest at their zero defaults — in particular a 1024-element
byte array from a 1-byte source; without truncate the end-of-data is
propagated, and an error other than end-of-data is propagated even with
truncate.  For struct elements decoder.array propagates even end-of-data
(see the counterexample). -/
theorem C5_truncate_amended :
    (∀ (m b c bo : Nat) (tg : Tags), tg.truncate = true →
        decoderArrayScalar .u8 true tg (m + 1) ⟨[b], c, bo, 0⟩ =
          .ok (b :: List.replicate m 0, ⟨[], c, bo, 0⟩)) ∧
    decoderArrayScalar .u8 true { defaultTags .u8 with truncate := true } 1024
        ⟨[55], 0, 0, 0⟩ = .ok (55 :: List.replicate 1023 0, ⟨[], 0, 0, 0⟩) ∧
    (∀ (m b c bo : Nat) (tg : Tags), tg.truncate = false →
        decoderArrayScalar .u8 true tg (m + 2) ⟨[b], c, bo, 0⟩ = .error .eof) ∧
    (∀ (k : FieldKind) (tg : Tags) (m : Nat) (d : DecState),
        decoderArrayScalar k false tg (m + 1) d = .error .cannotSet) := by
  have hread : ∀ (b c bo : Nat), ∀ s : List Nat,
      readValue .u8 true none ⟨b :: s, c, bo, 0⟩ = .ok (b, ⟨s, c, bo, 0⟩) := by
    intro b c bo s
    simp [readValue, decRead, decReadLoop, naturalBits, Nat.shiftLeft_zero, Nat.zero_or]
  have hread2 : ∀ (c bo : Nat), readValue .u8 true none ⟨[], c, bo, 0⟩ = .error .eof := by
    intro c bo
    simp [readValue, decRead, decReadLoop, naturalBits]
  have h1 : ∀ (m b c bo : Nat) (tg : Tags), tg.truncate = true →
      decoderArrayScalar .u8 true tg (m + 1) ⟨[b], c, bo, 0⟩ =
        .ok (b :: List.replicate m 0, ⟨[], c, bo, 0⟩) := by
    intro m b c bo tg ht
    cases m with
    | zero => simp [decoderArrayScalar, hread]
    | succ k => simp [decoderArrayScalar, hread, hread2, ht]
  refine ⟨h1, ?_, ?_, ?_⟩
  · have h := h1 1023 55 0 0 { defaultTags .u8 with truncate := true } rfl
    exact h
  · intro m b c bo tg ht
    simp [decoderArrayScalar, hread, hread2, ht]
  · intro k tg m d
    simp [decoderArrayScalar, readValue]

theorem C5_truncate_amended_witness :
    decoderArrayScalar .u8 true { defaultTags .u8 with truncate := true } 3 ⟨[9], 1, 2, 0⟩ =
      .ok ([9, 0, 0], ⟨[], 1, 2, 0⟩) ∧
    decoderArrayScalar .u8 true { defaultTags .u8 with truncate := false } 3 ⟨[9], 1, 2, 0⟩ =
      .error .eof := by
  constructor
  · have h := C5_truncate_amended.1 2 9 1 2 { defaultTags .u8 with truncate := true } rfl
    rw [show (3 : Nat) = 2 + 1 from rfl, h]
    rfl
  · have h := C5_truncate_amended.2.2.1 1 9 1 2 { defaultTags .u8 with truncate := false } rfl
    rw [show (3 : Nat) = 1 + 2 from rfl, h]

theorem decoderSliceLoop_length (k : FieldKind) (cs : Bool) (tg : Tags) :
    ∀ (n : Nat) (d : DecState) (vs : List Nat) (d2 : DecState),
    decoderSliceLoop k cs tg n d = .ok (vs, d2) → vs.length = n := by
  intro n
  induction n with
  | zero =>
    intro d vs d2 h
    rw [decoderSliceLoop] at h
    cases h
    rfl
  | succ n ih =>
    intro d vs d2 h
    rw [decoderSliceLoop] at h
    cases hr : readValue k cs none d with
    | error err =>
      simp only [hr] at h
      by_cases he : err = .eof ∧ tg.truncate
      · rw [if_pos he] at h
        cases h
        simp
      · rw [if_neg he] at h
        cases h
    | ok vd =>
      obtain ⟨v, d1⟩ := vd
      simp only [hr] at h
      cases hrec : decoderSliceLoop k cs tg n d1 with
      | error err =>
        simp only [hrec] at h
        cases h
      | ok p =>
        obtain ⟨vs1, d3⟩ := p
        simp only [hrec] at h
        cases h
        simpa using ih d1 vs1 _ hrec

/-- C6: decoding a slice governed by a sizeOf reference divides the
resolved byte span by the element size to obtain the element count, and
rejects a span that is not an exact multiple of the element size with the
non-multiple reference error — it is never silently shortened. -/
theorem C6_sizeof_span_division (k : FieldKind) (tg : Tags) (origLen v : Nat) (d : DecState) :
    (v % (naturalBits k / 8) ≠ 0 →
      decoderSliceScalar k true tg origLen (some (.sizeOf, v)) d = .error .nonMultipleSize) ∧
    (v % (naturalBits k / 8) = 0 →
      ∀ vs d2, decoderSliceScalar k true tg origLen (some (.sizeOf, v)) d = .ok (vs, d2) →
        vs.length = v / (naturalBits k / 8)) := by
  constructor
  · intro h
    simp [decoderSliceScalar, h]
  · intro h vs d2 hok
    simp only [decoderSliceScalar] at hok
    rw [if_neg (show ¬ v % (naturalBits k / 8) ≠ 0 by simp [h])] at hok
    exact decoderSliceLoop_length k true tg (v / (naturalBits k / 8)) d vs d2 hok

theorem C6_sizeof_span_division_witness :
    decoderSliceScalar .u16 true (defaultTags .u16) 0 (some (.sizeOf, 5)) (dec0 [1, 2, 3, 4, 5]) =
      .error .nonMultipleSize ∧
    [513, 1027].length = 2 := by
  constructor
  · exact (C6_sizeof_span_division .u16 (defaultTags .u16) 0 5 (dec0 [1, 2, 3, 4, 5])).1
      (by decide)
  · exact (C6_sizeof_span_division .u16 (defaultTags .u16) 0 4 (dec0 [1, 2, 3, 4, 5])).2
      (by decide) [513, 1027] ⟨[5], 0, 0, 0⟩ rfl

/-- C7: during Encode a layout-role field with a non-zero in-memory value
is written verbatim (as a uint64); with a zero value the written value is
computed from the referenced sequence's live length: element size times
length for sizeOf, additionally minus the running byte offset when
relative, and the bare length for countOf. -/
theorem C7_layout_value (refValue : Nat) (relative : Bool) (nbits targetLen elemSize : Nat)
    (e : EncState) :
    (refValue ≠ 0 → ∀ fmt, encoderLayout refValue fmt relative nbits targetLen elemSize e =
        encWrite (refValue % 2 ^ 64) nbits e) ∧
    (targetLen * elemSize < 2 ^ 64 →
      encoderLayout 0 .sizeOf false nbits targetLen elemSize e =
        encWrite (targetLen * elemSize) nbits e) ∧
    (targetLen * elemSize < 2 ^ 64 → e.byteOffset ≤ targetLen * elemSize →
      encoderLayout 0 .sizeOf true nbits targetLen elemSize e =
        encWrite (targetLen * elemSize - e.byteOffset) nbits e) ∧
    (targetLen < 2 ^ 64 →
      encoderLayout 0 .countOf relative nbits targetLen elemSize e =
        encWrite targetLen nbits e) := by
  refine ⟨?_, ?_, ?_, ?_⟩
  · intro h fmt
    have hv : encoderLayoutValue refValue fmt relative targetLen elemSize e =
        refValue % 2 ^ 64 := by
      simp [encoderLayoutValue, h]
    rw [encoderLayout, hv]
  · intro hlt
    have hv : encoderLayoutValue 0 .sizeOf false targetLen elemSize e =
        targetLen * elemSize := by
      simp only [encoderLayoutValue, goSub64]
      norm_num
      omega
    rw [encoderLayout, hv]
  · intro hlt hle
    have hv : encoderLayoutValue 0 .sizeOf true targetLen elemSize e =
        targetLen * elemSize - e.byteOffset := by
      simp only [encoderLayoutValue, goSub64]
      norm_num
      omega
    rw [encoderLayout, hv]
  · intro hlt
    have hv : encoderLayoutValue 0 .countOf relative targetLen elemSize e = targetLen := by
      simp only [encoderLayoutValue, goSub64]
      norm_num
      omega
    rw [encoderLayout, hv]

theorem lor_lt_two_pow {a b k : Nat} (ha : a < 2 ^ k) (hb : b < 2 ^ k) : a ||| b < 2 ^ k := by
  apply Nat.lt_pow_two_of_testBit
  intro i hi
  have h2 : (2 : Nat) ^ k ≤ 2 ^ i := Nat.pow_le_pow_right (by norm_num) hi
  simp [Nat.testBit_or, Nat.testBit_lt_two_pow (Nat.lt_of_lt_of_le ha h2),
    Nat.testBit_lt_two_pow (Nat.lt_of_lt_of_le hb h2)]

theorem naturalBits_le (k : FieldKind) : naturalBits k ≤ 64 := by
  cases k <;> simp [naturalBits]

theorem encodeFields_cons (f : Field) (rest : List Field) (e : EncState) :
    encodeFields (f :: rest) e =
      match encField f e with
      | .error err => .error err
      | .ok e2 => encodeFields rest e2 := rfl

theorem decodeFields_cons (f : Field) (rest : List Field) (d : DecState) :
    decodeFields (f :: rest) d =
      match readValue f.kind f.canSet (some f.tags) d with
      | .error err => .error err
      | .ok (v, d2) =>
        match decodeFields rest d2 with
        | .error err => .error err
        | .ok (vs, d3) => .ok (v :: vs, d3) := rfl

theorem readValue_sound (kind : FieldKind) (tg : Tags) (d : DecState)
    (hns : tg.bitfield.nbits ≤ naturalBits kind) :
    readValue kind true (some tg) d = decRead tg.bitfield.nbits d := by
  rw [readValue]
  simp [Nat.not_lt.mpr hns]

theorem wfFields_cons {f : Field} {rest : List Field} {off : Nat}
    (h : wfFields (f :: rest) off = true) :
    f.canSet = true ∧ f.tags.endian = .little ∧ f.value < 2 ^ f.tags.bitfield.nbits ∧
    1 ≤ f.tags.bitfield.nbits ∧ f.tags.bitfield.nbits ≤ naturalBits f.kind ∧
    (f.tags.bitfield.nbits < 8 → f.tags.bitfield.nbits ≤ 8 - off) ∧
    (8 ≤ f.tags.bitfield.nbits → off = 0 ∧ f.tags.bitfield.nbits % 8 = 0) ∧
    wfFields rest ((off + f.tags.bitfield.nbits) % 8) = true := by
  rw [wfFields] at h
  simp only [Bool.and_eq_true, beq_iff_eq, decide_eq_true_eq] at h
  obtain ⟨⟨⟨⟨⟨⟨h1, h2⟩, h3⟩, h4⟩, h5⟩, h6⟩, h7⟩ := h
  refine ⟨h1, h2, h3, h4, h5, ?_, ?_, h7⟩
  · intro hlt
    rw [if_pos hlt] at h6
    simpa using h6
  · intro hge
    rw [if_neg (by omega)] at h6
    simp only [Bool.and_eq_true, beq_iff_eq] at h6
    exact h6

theorem encField_little {f : Field} (e : EncState) (h2 : f.tags.endian = .little)
    (hv64 : f.value % 2 ^ 64 = f.value) :
    encField f e = encWrite f.value f.tags.bitfield.nbits e := by
  have h0 : encField f e =
      encWrite (if f.tags.endian = .big then reverseBytesKind f.kind (getValue f) else getValue f)
        f.tags.bitfield.nbits e := rfl
  rw [h0, h2, if_neg (by simp)]
  rw [show getValue f = f.value % 2 ^ 64 from rfl, hv64]

/-- The round-trip simulation invariant: encoding a well-formed field list
from an encoder state whose pending partial byte holds only its low
bitOffset bits succeeds, and the decoder, fed the emitted bytes (the first
of which, when the encoder starts mid-byte, is the byte the encoder later
completes and whose low bits are the pending bits), reproduces every field
value and consumes exactly the emitted bytes. -/
theorem roundtrip_aux : ∀ (fields : List Field) (off : Nat) (e : EncState),
    wfFields fields off = true → off < 8 → e.bitOffset = off →
    (off ≠ 0 → e.currentByte < 2 ^ off) →
    ∃ R : EncState, encodeFields fields e = .ok R ∧
      ((off = 0 → ∃ nb, R.out = e.out ++ nb ∧
          ∀ (rest : List Nat) (c bo : Nat), ∃ c2,
            decodeFields fields ⟨nb ++ rest, c, bo, 0⟩ =
              .ok (fields.map Field.value, ⟨rest, c2, bo, 0⟩)) ∧
       (off ≠ 0 → ∃ b nb, R.out = e.out ++ b :: nb ∧ b % 2 ^ off = e.currentByte ∧
          ∀ (rest : List Nat) (bo : Nat), ∃ c2,
            decodeFields fields ⟨nb ++ rest, b, bo, off⟩ =
              .ok (fields.map Field.value, ⟨rest, c2, bo, 0⟩))) := by
  intro fields
  induction fields with
  | nil =>
    intro off e hwf hoff8 hbit hinv
    have h0 : off = 0 := by simpa [wfFields] using hwf
    subst h0
    refine ⟨e, rfl, ?_, fun h => absurd rfl h⟩
    intro _
    refine ⟨[], by simp, ?_⟩
    intro rest c bo
    exact ⟨c, by simp [decodeFields]⟩
  | cons f rest ih =>
    intro off e hwf hoff8 hbit hinv
    obtain ⟨h1, h2, h3, h4, h5, h6a, h6b, h7⟩ := wfFields_cons hwf
    set n := f.tags.bitfield.nbits with hn
    have hnle64 : n ≤ 64 := Nat.le_trans h5 (naturalBits_le f.kind)
    have hvlt64 : f.value < 2 ^ 64 :=
      Nat.lt_of_lt_of_le h3 (Nat.pow_le_pow_right (by norm_num) hnle64)
    have hv64 : f.value % 2 ^ 64 = f.value := Nat.mod_eq_of_lt hvlt64
    have henc : encField f e = encWrite f.value n e := encField_little e h2 hv64
    by_cases hoff : off = 0
    · subst hoff
      by_cases hn8 : n < 8
      · -- sub-byte field from a byte-aligned state
        have hv256 : f.value % 256 = f.value := by
          have hp : (2 : Nat) ^ n ≤ 2 ^ 7 := Nat.pow_le_pow_right (by norm_num) (by omega)
          have : f.value < 256 := by
            have := Nat.lt_of_lt_of_le h3 hp
            omega
          exact Nat.mod_eq_of_lt this
        have henc2 : encWrite f.value n e = .ok { e with currentByte := f.value, bitOffset := n } := by
          rw [encWrite_aligned f.value n hbit, hv64, writeLoop_small f.value h4 hn8 e, hbit, hv256]
          simp
        have hwf' : wfFields rest (n % 8) = true := by simpa using h7
        have hn8' : n % 8 = n := Nat.mod_eq_of_lt hn8
        rw [hn8'] at hwf'
        obtain ⟨R, hR, _, hRn⟩ := ih n { e with currentByte := f.value, bitOffset := n }
          hwf' hn8 rfl (fun _ => h3)
        obtain ⟨b, nb, hout, hlow, hdec⟩ := hRn (by omega)
        refine ⟨R, ?_, ?_, fun h => absurd rfl h⟩
        · rw [encodeFields_cons, henc, henc2]
          exact hR
        · intro _
          refine ⟨b :: nb, by simpa using hout, ?_⟩
          intro rest' c bo
          obtain ⟨c2, hdec'⟩ := hdec rest' bo
          refine ⟨c2, ?_⟩
          rw [decodeFields_cons, h1, readValue_sound f.kind f.tags _ h5, ← hn,
            List.cons_append, decRead_fetch h4 hn8 b (nb ++ rest') c bo]
          have hbval : b &&& (2 ^ n - 1) = f.value := by
            rw [Nat.and_pow_two_sub_one_eq_mod, hlow]
          simp only [hbval, hdec', List.map_cons]
      · -- whole-byte field from a byte-aligned state
        have hmod8 : n % 8 = 0 := (h6b (by omega)).2
        have hk1 : 1 ≤ n / 8 := by omega
        have h8k : 8 * (n / 8) = n := by omega
        obtain ⟨cb, hwl⟩ := writeLoop_bytes (n / 8) f.value e
        have henc2 : encWrite f.value n e =
            .ok ⟨e.out ++ leBytes (n / 8) f.value, cb, e.byteOffset + n / 8, 0⟩ := by
          rw [encWrite_aligned f.value n hbit, hv64]
          conv_lhs => rw [← h8k]
          rw [hwl, hbit]
        have hwf' : wfFields rest 0 = true := by
          have : (0 + n) % 8 = 0 := by omega
          rwa [this] at h7
        obtain ⟨R, hR, hR0, _⟩ := ih 0 ⟨e.out ++ leBytes (n / 8) f.value, cb, e.byteOffset + n / 8, 0⟩
          hwf' (by omega) rfl (fun h => absurd rfl h)
        obtain ⟨nb, hout, hdec⟩ := hR0 rfl
        refine ⟨R, ?_, ?_, fun h => absurd rfl h⟩
        · rw [encodeFields_cons, henc, henc2]
          exact hR
        · intro _
          refine ⟨leBytes (n / 8) f.value ++ nb, ?_, ?_⟩
          · rw [hout]
            simp [List.append_assoc]
          · intro rest' c bo
            obtain ⟨c2, hdec'⟩ := hdec rest' c bo
            refine ⟨c2, ?_⟩
            rw [decodeFields_cons, h1, readValue_sound f.kind f.tags _ h5, ← hn,
              List.append_assoc, decRead_bytes_width (by omega) hmod8 h3 (nb ++ rest') c bo 0]
            simp only [hdec', List.map_cons]
    · -- mid-byte state: the field is sub-byte and fits the current byte
      have hn8 : n < 8 := by
        by_contra hcon
        exact hoff (h6b (by omega)).1
      have hfit : n ≤ 8 - off := h6a hn8
      have hc : e.currentByte < 2 ^ off := hinv hoff
      have hshl : f.value <<< off < 2 ^ (off + n) := shiftLeft_lt off h3
      have hoffn8 : off + n ≤ 8 := by omega
      have hshl256 : (f.value <<< off) % 256 = f.value <<< off := by
        apply Nat.mod_eq_of_lt
        have : (2 : Nat) ^ (off + n) ≤ 2 ^ 8 := Nat.pow_le_pow_right (by norm_num) hoffn8
        omega
      by_cases hfull : off + n = 8
      · -- the field exactly completes the pending byte
        have hrem : 8 - e.bitOffset = n := by omega
        have henc2 : encWrite f.value n e =
            .ok ⟨e.out ++ [e.currentByte ||| f.value <<< off], 0, e.byteOffset + 1, 0⟩ := by
          rw [encWrite_mid_large f.value (by omega : e.bitOffset ≠ 0) (by omega), hv64, hrem,
            hbit, hshl256, shiftRight_eq_zero h3, Nat.sub_self, writeLoop_zero]
          simp [writeByte]
        have hwf' : wfFields rest 0 = true := by
          have : (off + n) % 8 = 0 := by omega
          rwa [this] at h7
        obtain ⟨R, hR, hR0, _⟩ := ih 0
          ⟨e.out ++ [e.currentByte ||| f.value <<< off], 0, e.byteOffset + 1, 0⟩
          hwf' (by omega) rfl (fun h => absurd rfl h)
        obtain ⟨nb, hout, hdec⟩ := hR0 rfl
        refine ⟨R, ?_, fun h => absurd h hoff, ?_⟩
        · rw [encodeFields_cons, henc, henc2]
          exact hR
        · intro _
          refine ⟨e.currentByte ||| f.value <<< off, nb, ?_, low_of_assembled f.value hc, ?_⟩
          · rw [hout]
            simp [List.append_assoc]
          · intro rest' bo
            obtain ⟨c2, hdec'⟩ := hdec rest' (e.currentByte ||| f.value <<< off) bo
            refine ⟨c2, ?_⟩
            rw [decodeFields_cons, h1, readValue_sound f.kind f.tags _ h5, ← hn,
              @decRead_subbyte_ok ⟨nb ++ rest', e.currentByte ||| f.value <<< off, bo, off⟩ n
                h4 hn8 hoff hfit]
            have hval : (e.currentByte ||| f.value <<< off) >>> off &&& (2 ^ n - 1) = f.value :=
              extract_assembled hc h3
            rw [if_pos (show 8 ≤ off + n by omega)]
            simp only [hval, hdec', List.map_cons]
      · -- the field leaves the byte still pending
        have hlt8 : off + n < 8 := by omega
        have henc2 : encWrite f.value n e =
            .ok { e with
              currentByte := e.currentByte ||| f.value <<< off
              bitOffset := off + n } := by
          rw [encWrite_mid_small f.value (by omega : e.bitOffset ≠ 0) (by omega), hv64, hbit,
            hshl256]
        have hwf' : wfFields rest (off + n) = true := by
          have : (off + n) % 8 = off + n := Nat.mod_eq_of_lt hlt8
          rwa [this] at h7
        have hinv' : e.currentByte ||| f.value <<< off < 2 ^ (off + n) := by
          apply lor_lt_two_pow _ hshl
          have : (2 : Nat) ^ off ≤ 2 ^ (off + n) := Nat.pow_le_pow_right (by norm_num) (by omega)
          omega
        obtain ⟨R, hR, _, hRn⟩ := ih (off + n)
          { e with currentByte := e.currentByte ||| f.value <<< off, bitOffset := off + n }
          hwf' hlt8 rfl (fun _ => hinv')
        obtain ⟨b, nb, hout, hlow, hdec⟩ := hRn (by omega)
        refine ⟨R, ?_, fun h => absurd h hoff, ?_⟩
        · rw [encodeFields_cons, henc, henc2]
          exact hR
        · intro _
          have hblow : b % 2 ^ off = e.currentByte := by
            have hsplit : b % 2 ^ off = b % 2 ^ (off + n) % 2 ^ off :=
              (mod_two_pow_mod_two_pow b (by omega)).symm
            rw [hsplit, hlow]
            exact low_of_assembled f.value hc
          refine ⟨b, nb, by simpa using hout, hblow, ?_⟩
          intro rest' bo
          obtain ⟨c2, hdec'⟩ := hdec rest' bo
          refine ⟨c2, ?_⟩
          rw [decodeFields_cons, h1, readValue_sound f.kind f.tags _ h5, ← hn,
            @decRead_subbyte_ok ⟨nb ++ rest', b, bo, off⟩ n h4 hn8 hoff hfit]
          have hval : b >>> off &&& (2 ^ n - 1) = f.value := by
            rw [Nat.and_pow_two_sub_one_eq_mod, shiftRight_mod_two_pow, hlow]
            rw [lor_shiftRight, shiftRight_eq_zero hc, Nat.zero_or, Nat.shiftLeft_shiftRight]
          rw [if_neg (show ¬ 8 ≤ off + n by omega)]
          simp only [hval, hdec', List.map_cons]

/-- C1 counterexample: round-tripping is not universal.  A 16-bit field
tagged big-endian (value 0x0123, no reserved content) encodes to 01 23
but decodes — decoder.readValue never byte-reverses — to 0x2301, not
0x0123; and two sub-byte fields of 3 and 7 bits (values 1 and 1) encode
successfully yet decoding fails with the insufficient-bits error because
the 7-bit field would have to span a byte boundary. -/
theorem C1_roundtrip_cex :
    (encodeFields [⟨.u16, { defaultTags .u16 with endian := .big }, true, 0x0123⟩] enc0 =
        .ok ⟨[1, 35], 35, 2, 0⟩ ∧
      decodeFields [⟨.u16, { defaultTags .u16 with endian := .big }, true, 0x0123⟩]
          (dec0 [1, 35]) = .ok ([0x2301], ⟨[], 0, 0, 0⟩) ∧
      (0x2301 : Nat) ≠ 0x0123) ∧
    (encodeFields [⟨.u8, { defaultTags .u8 with bitfield := ⟨3, false⟩ }, true, 1⟩,
          ⟨.u8, { defaultTags .u8 with bitfield := ⟨7, false⟩ }, true, 1⟩] enc0 =
        .ok ⟨[9], 0, 1, 2⟩ ∧
      decodeFields [⟨.u8, { defaultTags .u8 with bitfield := ⟨3, false⟩ }, true, 1⟩,
          ⟨.u8, { defaultTags .u8 with bitfield := ⟨7, false⟩ }, true, 1⟩] (dec0 [9]) =
        .error .insufficientBits) :=
  ⟨⟨rfl, rfl, by decide⟩, rfl, rfl⟩

/-- C1 (amended): for every structure of little-endian scalar fields whose
layout is well formed — each value fits its declared width, each sub-byte
field fits in the bits remaining in its byte, each wider field starts
byte-aligned with a byte-multiple width within the natural storage width,
and the total is a whole number of bytes — and that contains no
reserved-field content, decoding the bytes produced by encoding yields
exactly the original field values (reserved fields among them, which hold
zero by hypothesis, decode to the zero that was written for them). -/
theorem C1_roundtrip_amended (fields : List Field)
    (hwf : wfFields fields 0 = true) (hres : noReservedContent fields = true) :
    ∃ (R : EncState) (c2 : Nat), encodeFields fields enc0 = .ok R ∧
      decodeFields fields (dec0 R.out) = .ok (fields.map Field.value, ⟨[], c2, 0, 0⟩) := by
  obtain ⟨R, hR, h0, _⟩ := roundtrip_aux fields 0 enc0 hwf (by norm_num) rfl
    (fun h => absurd rfl h)
  obtain ⟨nb, hout, hdec⟩ := h0 rfl
  obtain ⟨c2, hc2⟩ := hdec [] 0 0
  refine ⟨R, c2, hR, ?_⟩
  have hout' : R.out = nb := by simpa using hout
  rw [dec0, hout']
  simpa using hc2

theorem C1_roundtrip_amended_witness :
    ∃ (R : EncState) (c2 : Nat),
      encodeFields [⟨.u8, { defaultTags .u8 with bitfield := ⟨3, false⟩ }, true, 5⟩,
        ⟨.u8, { defaultTags .u8 with bitfield := ⟨5, false⟩ }, true, 7⟩] enc0 = .ok R ∧
      decodeFields [⟨.u8, { defaultTags .u8 with bitfield := ⟨3, false⟩ }, true, 5⟩,
        ⟨.u8, { defaultTags .u8 with bitfield := ⟨5, false⟩ }, true, 7⟩] (dec0 R.out) =
        .ok ([5, 7], ⟨[], c2, 0, 0⟩) := by
  have h := C1_roundtrip_amended
    [⟨.u8, { defaultTags .u8 with bitfield := ⟨3, false⟩ }, true, 5⟩,
      ⟨.u8, { defaultTags .u8 with bitfield := ⟨5, false⟩ }, true, 7⟩]
    (by decide) (by decide)
  exact h

theorem encAlignPad_emits : ∀ (k : Nat) (e : EncState), e.bitOffset = 0 → ∃ c2,
    encAlignPad k e = .ok ⟨e.out ++ List.replicate k 0, c2, e.byteOffset + k, 0⟩
  | 0, e, h => by
    refine ⟨e.currentByte, ?_⟩
    obtain ⟨o, c, bo, off⟩ := e
    cases h
    simp [encAlignPad]
  | k + 1, e, h => by
    have hw : encWrite 0 8 e = .ok ⟨e.out ++ [0], 0, e.byteOffset + 1, 0⟩ := by
      rw [encWrite_aligned 0 8 h]
      have : writeLoop (0 % 2 ^ 64) 8 e = ⟨e.out ++ [0], 0, e.byteOffset + 1, e.bitOffset⟩ := rfl
      rw [this, h]
    obtain ⟨c2, ih⟩ := encAlignPad_emits k ⟨e.out ++ [0], 0, e.byteOffset + 1, 0⟩ rfl
    refine ⟨c2, ?_⟩
    simp only [encAlignPad, hw, ih]
    simp [List.replicate_succ, List.append_assoc]
    omega

theorem align_pad_mod (b bo : Nat) (hb : 0 < b) : (bo + (b - bo % b) % b) % b = 0 := by
  rcases Nat.eq_zero_or_pos (bo % b) with h | h
  · rw [h, Nat.sub_zero, Nat.mod_self, Nat.add_zero, h]
  · have h1 : bo % b < b := Nat.mod_lt bo hb
    have h2 : (b - bo % b) % b = b - bo % b := Nat.mod_eq_of_lt (by omega)
    rw [h2]
    have h3 : bo + (b - bo % b) = b * (bo / b + 1) := by
      have := Nat.div_add_mod bo b
      have hmul : b * (bo / b + 1) = b * (bo / b) + b := by ring
      omega
    rw [h3, Nat.mul_mod_right]

theorem encAlign_flush {e : EncState} (b : Nat) (h : e.bitOffset ≠ 0) (h8 : e.bitOffset < 8) :
    encAlign b e = encAlignPad ((b - (e.byteOffset + 1) % b) % b)
      ⟨e.out ++ [e.currentByte], 0, e.byteOffset + 1, 0⟩ := by
  have hflush : encWrite 0 (8 - e.bitOffset) e =
      .ok ⟨e.out ++ [e.currentByte], 0, e.byteOffset + 1, 0⟩ := by
    rw [encWrite_mid_large 0 h (Nat.le_refl _)]
    simp [writeByte, Nat.zero_shiftLeft, Nat.zero_shiftRight, Nat.sub_self, writeLoop_zero,
      Nat.zero_mod, Nat.or_zero]
  simp only [encAlign, hflush]
  rw [if_pos h]

theorem encAlign_noflush {e : EncState} (b : Nat) (h : e.bitOffset = 0) :
    encAlign b e = encAlignPad ((b - e.byteOffset % b) % b) e := by
  simp only [encAlign, h]
  simp

/-- C8: alignment before a field is honoured during Encode: a 1-byte field
followed by a 4-byte field tagged align=4 encodes to exactly 8 bytes with
bytes 1..3 zero and the 4-byte value little-endian in bytes 4..7; and in
general encoder.align flushes any pending partial byte (zero padded, so
the byte written is the pending byte itself) and then emits zero bytes
until the running byte offset is a multiple of the boundary.  The
per-field align dispatch is modelled from the spec (encodeFieldsAligned),
the align operation itself from the source. -/
theorem C8_alignment (pad v : Nat) (hp : pad < 256) (hv : v < 2 ^ 32) :
    encodeFieldsAligned [⟨.u8, defaultTags .u8, true, pad⟩,
        ⟨.u32, { defaultTags .u32 with alignment := 4 }, true, v⟩] enc0 =
      .ok ⟨[pad, 0, 0, 0, v % 256, v >>> 8 % 256, v >>> 16 % 256, v >>> 24 % 256],
        v >>> 24 % 256, 8, 0⟩ ∧
    (∀ (b : Nat) (e : EncState), 0 < b → e.bitOffset = 0 →
      ∃ c2, encAlign b e = .ok ⟨e.out ++ List.replicate ((b - e.byteOffset % b) % b) 0, c2,
          e.byteOffset + (b - e.byteOffset % b) % b, 0⟩ ∧
        (e.byteOffset + (b - e.byteOffset % b) % b) % b = 0) ∧
    (∀ (b : Nat) (e : EncState), 0 < b → e.bitOffset ≠ 0 → e.bitOffset < 8 →
      ∃ k c2, encAlign b e = .ok ⟨e.out ++ e.currentByte :: List.replicate k 0, c2,
          e.byteOffset + 1 + k, 0⟩ ∧ (e.byteOffset + 1 + k) % b = 0) := by
  refine ⟨?_, ?_, ?_⟩
  · have hp64 : pad % 2 ^ 64 = pad := Nat.mod_eq_of_lt (by omega)
    have hp256 : pad % 256 = pad := Nat.mod_eq_of_lt hp
    have hv64 : v % 2 ^ 64 = v := Nat.mod_eq_of_lt (by omega)
    have hf1 : encField ⟨.u8, defaultTags .u8, true, pad⟩ enc0 = .ok ⟨[pad], pad, 1, 0⟩ := by
      have h0 : encField ⟨.u8, defaultTags .u8, true, pad⟩ enc0 =
          encWrite (pad % 2 ^ 64) 8 enc0 := rfl
      rw [h0, hp64, encWrite_aligned pad 8 rfl, hp64]
      have h1 : writeLoop pad 8 enc0 = ⟨[pad % 256], pad % 256, 1, 0⟩ := rfl
      rw [h1, hp256]
    have hf2 : encField ⟨.u32, { defaultTags .u32 with alignment := 4 }, true, v⟩
        (⟨[pad, 0, 0, 0], 0, 4, 0⟩ : EncState) =
        .ok ⟨[pad, 0, 0, 0, v % 256, v >>> 8 % 256, v >>> 16 % 256, v >>> 24 % 256],
          v >>> 24 % 256, 8, 0⟩ := by
      have h0 : encField ⟨.u32, { defaultTags .u32 with alignment := 4 }, true, v⟩
          (⟨[pad, 0, 0, 0], 0, 4, 0⟩ : EncState) =
          encWrite (v % 2 ^ 64) 32 ⟨[pad, 0, 0, 0], 0, 4, 0⟩ := rfl
      rw [h0, hv64, encWrite_aligned v 32 rfl, hv64]
      have h1 : writeLoop v 32 (⟨[pad, 0, 0, 0], 0, 4, 0⟩ : EncState) =
          ⟨[pad, 0, 0, 0, v % 256, v >>> 8 % 256, v >>> 8 >>> 8 % 256, v >>> 8 >>> 8 >>> 8 % 256],
            v >>> 8 >>> 8 >>> 8 % 256, 8, 0⟩ := rfl
      have h16 : v >>> 8 >>> 8 = v >>> 16 := by rw [← Nat.shiftRight_add]
      have h24 : v >>> 16 >>> 8 = v >>> 24 := by rw [← Nat.shiftRight_add]
      rw [h1, h16, h24]
    rw [show encodeFieldsAligned [⟨.u8, defaultTags .u8, true, pad⟩,
        ⟨.u32, { defaultTags .u32 with alignment := 4 }, true, v⟩] enc0 =
      (match encField ⟨.u8, defaultTags .u8, true, pad⟩ enc0 with
        | .error err => .error err
        | .ok e => encodeFieldsAligned [⟨.u32, { defaultTags .u32 with alignment := 4 }, true, v⟩] e)
      from rfl, hf1]
    show encodeFieldsAligned [⟨.u32, { defaultTags .u32 with alignment := 4 }, true, v⟩]
        ⟨[pad], pad, 1, 0⟩ = _
    rw [show encodeFieldsAligned [⟨.u32, { defaultTags .u32 with alignment := 4 }, true, v⟩]
        (⟨[pad], pad, 1, 0⟩ : EncState) =
      (match encField ⟨.u32, { defaultTags .u32 with alignment := 4 }, true, v⟩
          (⟨[pad, 0, 0, 0], 0, 4, 0⟩ : EncState) with
        | .error err => .error err
        | .ok e => .ok e)
      from rfl, hf2]
  · intro b e hb h0
    obtain ⟨c2, hpad⟩ := encAlignPad_emits ((b - e.byteOffset % b) % b) e h0
    exact ⟨c2, by rw [encAlign_noflush b h0, hpad], align_pad_mod b e.byteOffset hb⟩
  · intro b e hb hne h8
    obtain ⟨c2, hpad⟩ := encAlignPad_emits ((b - (e.byteOffset + 1) % b) % b)
      ⟨e.out ++ [e.currentByte], 0, e.byteOffset + 1, 0⟩ rfl
    refine ⟨(b - (e.byteOffset + 1) % b) % b, c2, ?_, ?_⟩
    · rw [encAlign_flush b hne h8, hpad]
      simp [List.append_assoc]
    · exact align_pad_mod b (e.byteOffset + 1) hb

theorem C8_alignment_witness :
    encodeFieldsAligned [⟨.u8, defaultTags .u8, true, 0xAB⟩,
        ⟨.u32, { defaultTags .u32 with alignment := 4 }, true, 0xDEADBEEF⟩] enc0 =
      .ok ⟨[0xAB, 0, 0, 0, 0xEF, 0xBE, 0xAD, 0xDE], 0xDE, 8, 0⟩ := by
  have h := (C8_alignment 0xAB 0xDEADBEEF (by decide) (by decide)).1
  rw [h]
  rfl

theorem tagsAdd_bitfield (sf : StructField) (t : Tags) (val : String) :
    tagsAdd sf t "bitfield" val =
      match (if (goSplitFirst val).data.length ≠ 0 then
              match goParseInt (goSplitFirst val) (naturalBits sf.kind) with
              | none => .error ⟨sf.rawTag, sf.kind⟩
              | some nbits => .ok { t with bitfield := { t.bitfield with nbits := nbits } }
            else .ok t : Except TaggingError Tags) with
      | .error err => .error err
      | .ok t2 =>
        .ok { t2 with bitfield := { t2.bitfield with reserved := goContains val "reserved" } } :=
  rfl

theorem tagsAdd_align (sf : StructField) (t : Tags) (val : String) :
    tagsAdd sf t "align" val =
      match goParseInt val 64 with
      | none => .error ⟨sf.rawTag, sf.kind⟩
      | some a => .ok { t with alignment := a } :=
  rfl

/-- C9 counterexample: a bitfield width of 9 on a uint8 field exceeds the
field's 8-bit storage width, yet tags.add accepts the annotation without a
tagging error (strconv.ParseInt with bit size 8 accepts any value up to
127), so the violation is not reported at descriptor-construction time. -/
theorem C9_definition_time_cex :
    tagsAdd ⟨.u8, "bitfield 9 on uint8"⟩ (defaultTags .u8) "bitfield" "9" =
      .ok { defaultTags .u8 with bitfield := ⟨9, false⟩ } :=
  rfl

/-- C9 (amended): a non-numeric bitfield or align value fails at
descriptor-construction time with a tagging error carrying the raw tag
text and the field's kind; but an explicit bit width exceeding the
field's natural storage width is accepted at construction time whenever
ParseInt admits it (any width up to the signed storage-width bound), and
is rejected only when data is decoded, by readValue's width check. -/
theorem C9_tagging_errors (sf : StructField) (t : Tags) (val : String) :
    (goParseInt (goSplitFirst val) (naturalBits sf.kind) = none →
      (goSplitFirst val).data.length ≠ 0 →
      tagsAdd sf t "bitfield" val = .error ⟨sf.rawTag, sf.kind⟩) ∧
    (goParseInt val 64 = none → tagsAdd sf t "align" val = .error ⟨sf.rawTag, sf.kind⟩) ∧
    (∀ (kind : FieldKind) (tg : Tags) (d : DecState), naturalBits kind < tg.bitfield.nbits →
      readValue kind true (some tg) d = .error .bitfieldTooWide) := by
  refine ⟨?_, ?_, ?_⟩
  · intro hparse hlen
    rw [tagsAdd_bitfield, if_pos hlen]
    simp only [hparse]
  · intro hparse
    rw [tagsAdd_align]
    simp only [hparse]
  · intro kind tg d hwide
    simp [readValue, hwide]

theorem C9_tagging_errors_witness :
    tagsAdd ⟨.u8, "raw tag"⟩ (defaultTags .u8) "bitfield" "abc" = .error ⟨"raw tag", .u8⟩ ∧
    tagsAdd ⟨.u8, "raw tag"⟩ (defaultTags .u8) "align" "xyz" = .error ⟨"raw tag", .u8⟩ ∧
    readValue .u8 true (some { defaultTags .u8 with bitfield := ⟨9, false⟩ }) (dec0 [1]) =
      .error .bitfieldTooWide := by
  refine ⟨?_, ?_, ?_⟩
  · exact (C9_tagging_errors ⟨.u8, "raw tag"⟩ (defaultTags .u8) "abc").1 rfl (by decide)
  · exact (C9_tagging_errors ⟨.u8, "raw tag"⟩ (defaultTags .u8) "xyz").2.1 rfl
  · exact (C9_tagging_errors ⟨.u8, "raw tag"⟩ (defaultTags .u8) "").2.2 .u8
      { defaultTags .u8 with bitfield := ⟨9, false⟩ } (dec0 [1]) (by decide)

theorem C7_layout_value_witness :
    encoderLayout 7 .sizeOf false 8 3 2 enc0 = encWrite (7 % 2 ^ 64) 8 enc0 ∧
    encoderLayout 0 .sizeOf true 8 3 2 ⟨[9], 0, 1, 0⟩ = encWrite 5 8 ⟨[9], 0, 1, 0⟩ ∧
    encoderLayout 0 .countOf false 8 3 2 enc0 = encWrite 3 8 enc0 := by
  refine ⟨?_, ?_, ?_⟩
  · exact (C7_layout_value 7 false 8 3 2 enc0).1 (by decide) .sizeOf
  · exact (C7_layout_value 0 true 8 3 2 ⟨[9], 0, 1, 0⟩).2.2.1 (by norm_num) (by norm_num)
  · exact (C7_layout_value 0 false 8 3 2 enc0).2.2.2 (by norm_num)

end Structex
